import Mathlib

/-!
# Verification of the `pbt` property-based-testing engine

Shallow embedding of the core of the `pbt` crates (the canonical
`Count`/`Conjure`/`Shrink` design in `pbt/src`, plus the earlier
seed/partition design in `src/`), together with proofs about the
seed allocator, the conjure engine, the shrink engine, the iterator
combinators and the witness search.

Machine integers (`u64`/`usize`) are modelled as `Nat` with explicit
reductions modulo `2 ^ 64` where the code can overflow; Rust `Result<_,
Uninstantiable>` and `Option` both become `Option`; fallible search results
become `Except`.
-/

namespace Pbt

/-- `2 ^ 64`, the modulus for 64-bit arithmetic. -/
def U64 : Nat := 2 ^ 64

/-- Modelled from the spec: the external `wyrand` crate's
`WyRand::gen_u64 : u64 -> (u64, u64)` (output, next state) is not part of
this repository; the spec describes it only as "advance 64-bit state (fast
non-cryptographic mixing function), return output".  We use the published
wyrand algorithm: add an odd constant to the state, multiply the new state
with its xor against a second constant in 128 bits, and xor-fold the two
halves of the product. -/
def wyrandGen (state : Nat) : Nat × Nat :=
  let s : Nat := (state + 0xa0761d6478bd642f) % U64
  let t : Nat := s * (Nat.xor s 0xe7037ed1a0b428db)
  (Nat.xor (t / U64) (t % U64) % U64, s)

/-- Cardinality of the minimal model of a type (`src/count.rs` and
`pbt/src/count.rs`): `Empty` (uninstantiable), `Finite`, or (countably)
`Infinite`. -/
inductive Cardinality : Type
  | Empty : Cardinality
  | Finite : Cardinality
  | Infinite : Cardinality
deriving DecidableEq, Repr

namespace Cardinality

/-- `Cardinality::sum` from `src/count.rs`; `pbt`'s `of_sum` (whose module is
not under `src/`) is modelled from the spec's identical table: "Empty is
identity, Infinite absorbs, Finite+Finite=Finite". -/
def sum (self other : Cardinality) : Cardinality :=
  match self with
  | .Empty => other
  | .Infinite => .Infinite
  | .Finite =>
    match other with
    | .Empty | .Finite => .Finite
    | .Infinite => .Infinite

end Cardinality

/-- `Seed` of the canonical design (`pbt/src/conjure.rs`): a 64-bit PRNG
state together with a `size` budget for inductive constructors. -/
structure SeedP : Type where
  seed : Nat
  size : Nat
deriving DecidableEq, Repr

namespace SeedP

/-- `Seed::new` (`pbt/src/conjure.rs`): fixed initial state. -/
def new (size : Nat) : SeedP :=
  { seed := 13371337133713371337, size := size }

/-- `Seed::prng` (`pbt/src/conjure.rs`): draw a `u64`, advancing the state;
returns the drawn value together with the seed holding the new state. -/
def prng (s : SeedP) : Nat × SeedP :=
  let (out, st) := wyrandGen s.seed
  (out, { s with seed := st })

/-- `Seed::prng_bool` (`pbt/src/conjure.rs`): low bit of a fresh draw. -/
def prngBool (s : SeedP) : Bool × SeedP :=
  let (out, s) := s.prng
  (out % 2 != 0, s)

/-- `Seed::should_recurse` (`pbt/src/conjure.rs`): with probability
`1/(size+1)` report `false` (stop recursing).  The state is advanced by one
draw except when `size + 1` overflows a `usize`, in which case the function
reports `true` without drawing.  NOTE: the size decrement present in the
older design is commented out in this source file, so the `size` field is
returned unchanged. -/
def shouldRecurse (s : SeedP) : Bool × SeedP :=
  if s.size + 1 < U64 then
    let (out, s) := s.prng
    if out % (s.size + 1) == 0 then (false, s) else (true, s)
  else
    (true, s)

end SeedP

/-- `Seeds` iterator state (`pbt/src/conjure.rs`): wraps a running `Seed`;
`next` hands out a freshly drawn state paired with the current size, then
increments the size (stopping on overflow). -/
def seedsNext (s : SeedP) : Option (SeedP × SeedP) :=
  let (out, s') := s.prng
  let next : SeedP := { seed := out, size := s.size }
  if s'.size + 1 < U64 then some (next, { s' with size := s'.size + 1 })
  else none

/-- First `n` elements of `conjure::seeds()` (`pbt/src/conjure.rs`):
`Seeds(Seed::new(0))`, i.e. `witness`'s trial seeds. -/
def seedsList (n : Nat) : List SeedP :=
  go n (SeedP.new 0)
where
  /-- Take `n` elements of the `Seeds` iterator starting from state `s`. -/
  go : Nat → SeedP → List SeedP
  | 0, _ => []
  | n + 1, s =>
    match seedsNext s with
    | none => []
    | some (next, s') => next :: go n s'

/-- `Seed` of the earlier design (`src/conjure.rs`): just a 64-bit PRNG
state; the size budget is passed separately. -/
structure SeedS : Type where
  state : Nat
deriving DecidableEq, Repr

namespace SeedS

/-- `Seed::prng` (`src/conjure.rs`). -/
def prng (s : SeedS) : Nat × SeedS :=
  let (out, st) := wyrandGen s.state
  (out, { state := st })

/-- `Seed::split` (`src/conjure.rs`): a fresh child seed from one draw,
returned together with the advanced parent. -/
def split (s : SeedS) : SeedS × SeedS :=
  let (out, s') := s.prng
  ({ state := out }, s')

end SeedS

/-- Sort into descending order: the order in which `BinaryHeap::pop`
(a max-heap) hands back its elements. -/
def sortDesc (l : List Nat) : List Nat :=
  l.insertionSort (· ≥ ·)

/-- Draw `n` pseudorandom values, each reduced `% m`, advancing the state:
the `N - 1` interior boundaries sampled by `Seed::partition`
(`src/conjure.rs`) and `Seed::split` (`pbt/src/conjure.rs`). -/
def drawSamplesS (n m : Nat) (s : SeedS) : List Nat × SeedS :=
  match n with
  | 0 => ([], s)
  | k + 1 =>
    let (out, s1) := s.prng
    let (rest, s2) := drawSamplesS k m s1
    ((out % U64) % m :: rest, s2)

/-- The `array::from_fn` loop of `Seed::partition` (`src/conjure.rs`): for
each of `n` children, pop the largest remaining boundary, peek the next one,
and pair a fresh child seed with their difference. -/
def partGoS (n : Nat) (bs : List Nat) (s : SeedS) : List (SeedS × Nat) × SeedS :=
  match n, bs with
  | 0, _ => ([], s)
  | k + 1, b0 :: b1 :: rest =>
    let (child, s1) := s.split
    let (tail, s2) := partGoS k (b1 :: rest) s1
    ((child, b0 - b1) :: tail, s2)
  | _ + 1, _ => ([], s)

/-- The zero-size `array::from_fn` loop of `Seed::partition`
(`src/conjure.rs`): `n` children, each a fresh seed with size `0`. -/
def partZeroS (n : Nat) (s : SeedS) : List (SeedS × Nat) × SeedS :=
  match n with
  | 0 => ([], s)
  | k + 1 =>
    let (child, s1) := s.split
    let (tail, s2) := partZeroS k s1
    ((child, 0) :: tail, s2)

/-- `Seed::partition::<N>` (`src/conjure.rs`): stars-and-bars split of a
size budget over `n` children.  For a positive budget, build the descending
sequence of `{0, size}` plus `n - 1` samples `% size` and hand each child
the difference of consecutive boundaries together with a fresh seed. -/
def partitionS (s : SeedS) (size n : Nat) : List (SeedS × Nat) × SeedS :=
  if size ≠ 0 then
    let (samples, s1) := drawSamplesS (n - 1) size s
    partGoS n (sortDesc (0 :: size :: samples)) s1
  else
    partZeroS n s

/-- `Seed::should_recurse::<N>` (`src/conjure.rs`): reserve one unit of the
budget (`None` when the budget is already `0`); then with the next draw,
decline (`None`) when it is divisible by `size + 1`; otherwise partition
the *remaining* budget `size - 1` over `n` children.  When `size + 1` would
overflow a `usize`, the divisibility test is skipped without drawing. -/
def shouldRecurseS (s : SeedS) (size n : Nat) : Option (List (SeedS × Nat)) × SeedS :=
  match size with
  | 0 => (none, s)
  | rem + 1 =>
    if rem + 2 < U64 then
      let (out, s1) := s.prng
      if (out % U64) % (rem + 2) == 0 then (none, s1)
      else
        let (cs, s2) := partitionS s1 rem n
        (some cs, s2)
    else
      let (cs, s2) := partitionS s rem n
      (some cs, s2)

namespace SeedP

/-- The `array::from_fn` loop of `Seed::split` (`pbt/src/conjure.rs`):
like `partGoS` but each child is a full `Seed` carrying its size. -/
def splitGo (n : Nat) (bs : List Nat) (s : SeedP) : List SeedP :=
  match n, bs with
  | 0, _ => []
  | k + 1, b0 :: b1 :: rest =>
    let (out, s1) := s.prng
    { seed := out, size := b0 - b1 } :: splitGo k (b1 :: rest) s1
  | _ + 1, _ => []

/-- The zero-size `array::from_fn` loop of `Seed::split`
(`pbt/src/conjure.rs`). -/
def splitZero (n : Nat) (s : SeedP) : List SeedP :=
  match n with
  | 0 => []
  | k + 1 =>
    let (out, s1) := s.prng
    { seed := out, size := 0 } :: splitZero k s1

/-- Draw `n` samples `% m` from a `SeedP`'s stream
(the heap contents of `Seed::split`, `pbt/src/conjure.rs`). -/
def drawSamples (n m : Nat) (s : SeedP) : List Nat × SeedP :=
  match n with
  | 0 => ([], s)
  | k + 1 =>
    let (out, s1) := s.prng
    let (rest, s2) := drawSamples k m s1
    ((out % U64) % m :: rest, s2)

/-- `Seed::split::<N>` (`pbt/src/conjure.rs`): consume the seed, producing
`n` children whose sizes are consecutive differences of the descending
boundary sequence `{0, self.size}` plus `n - 1` samples `% self.size`. -/
def split (s : SeedP) (n : Nat) : List SeedP :=
  if s.size ≠ 0 then
    let (samples, s1) := s.drawSamples (n - 1) s.size
    splitGo n (sortDesc (0 :: s.size :: samples)) s1
  else
    splitZero n s

end SeedP

/-- The `'logarithmic` loop of `Shrink::step` for unsigned integers
(`pbt/src/impls/ints.rs`), over a stateful property (Rust's `FnMut` closures
become explicit state threading; a pure property uses `σ := Unit`): at shift
`k`, stop when the shift is the full bit width `w` (`checked_shr` fails) or
when `self >> k` is zero; otherwise test `self - (self >> k)`, returning it
on success and moving to shift `k + 1` on failure. -/
def stepGo (w x : Nat) (p : Nat → σ → Bool × σ) (shift : Nat) (s : σ) :
    Option Nat × σ :=
  if h : w ≤ shift then (none, s)
  else
    let subtrahend := x >>> shift
    if subtrahend = 0 then (none, s)
    else
      let difference := x - subtrahend
      let (b, s') := p difference s
      if b then (some difference, s')
      else stepGo w x p (shift + 1) s'
termination_by w - shift

/-- `Shrink::step` for a `w`-bit unsigned integer (`pbt/src/impls/ints.rs`):
the logarithmic ladder starting at shift `0` (the linear gap-filling phase
below it is commented out in the source). -/
def stepU (w x : Nat) (p : Nat → σ → Bool × σ) (s : σ) : Option Nat × σ :=
  stepGo w x p 0 s

/-- The candidate menu that the spec describes for the unsigned ladder:
`self - (self >> k)` for `k = 0, 1, 2, ...` in increasing order, stopping
when `self >> k` becomes `0`.  (Defined against the spec's description so
it can be compared with the `stepU` embedding of the source.) -/
def ladderCandidates (x : Nat) (k : Nat) : List Nat :=
  if h : x >>> k = 0 then []
  else (x - x >>> k) :: ladderCandidates x (k + 1)
termination_by (x + 1) - k
decreasing_by
  have hk : k ≤ x := by
    by_contra hgt
    push_neg at hgt
    have hpow : x < 2 ^ k :=
      lt_of_lt_of_le (Nat.lt_two_pow x)
        (Nat.pow_le_pow_right (by omega) (le_of_lt hgt))
    rw [Nat.shiftRight_eq_div_pow] at h
    exact h (Nat.div_eq_of_lt hpow)
  omega

/-- The memoizing wrapper that `minimal` (`pbt/src/shrink.rs`) puts around
the property: answer `false` for any value already in the `reuse` set,
otherwise record the value and consult the real property. -/
def memoQuery (p : Nat → Bool) (t : Nat) (seen : List Nat) : Bool × List Nat :=
  if t ∈ seen then (false, seen) else (p t, t :: seen)

/-- A successful ladder step strictly shrinks the value (the subtrahend is
nonzero), which is what makes `minimal`'s driver loop terminate here. -/
lemma stepGo_some_lt {σ : Type} {w x d : Nat} {p : Nat → σ → Bool × σ}
    {s s' : σ} :
    ∀ {shift}, stepGo w x p shift s = (some d, s') → d < x := by
  intro shift h
  induction' hk : w - shift with k ih generalizing shift s
  · rw [stepGo, dif_pos (Nat.le_of_sub_eq_zero hk)] at h
    exact absurd (congrArg (fun z => z.1) h) (by simp)
  · have hw : ¬ w ≤ shift := by omega
    rw [stepGo, dif_neg hw] at h
    by_cases hz : x >>> shift = 0
    · rw [if_pos hz] at h
      exact absurd (congrArg (fun z => z.1) h) (by simp)
    · rw [if_neg hz] at h
      rcases hb : p (x - x >>> shift) s with ⟨b, s₁⟩
      simp only [hb] at h
      by_cases hbb : b = true
      · simp only [hbb, if_true] at h
        have ht : 0 < x >>> shift := Nat.pos_of_ne_zero hz
        have hle : x >>> shift ≤ x := by
          rw [Nat.shiftRight_eq_div_pow]
          exact Nat.div_le_self x (2 ^ shift)
        have hd : d = x - x >>> shift := by
          have h1 := congrArg (fun z => z.1) h
          simpa using h1.symm
        omega
      · simp only [hbb, if_false] at h
        exact ih h (by omega)

/-- The driver loop of `minimal` (`pbt/src/shrink.rs`), specialized to the
8-bit unsigned ladder: repeatedly `step` with the memoized property,
replacing the accumulator on success, until `step` returns `None`. -/
def minimalGo (p : Nat → Bool) (acc : Nat) (seen : List Nat) : Nat :=
  match h : stepU 8 acc (memoQuery p) seen with
  | (none, _) => acc
  | (some reduced, seen') => minimalGo p reduced seen'
termination_by acc
decreasing_by exact stepGo_some_lt h

/-- `minimal` (`pbt/src/shrink.rs`) at type `u8`: drive the single-step
shrinker from `t` with a fresh memo set (the first `step` returning `None`
gives back `t` itself, exactly as the driver loop does). -/
def minimalU8 (t : Nat) (p : Nat → Bool) : Nat :=
  minimalGo p t []

/-- `u8::conjure` (`pbt/src/impls/ints.rs`): delegates through
`i8::conjure = i8::leaf`, which draws one `u64` and truncates (`as i8`,
then `cast_unsigned`): the low byte of one draw.  Never uninstantiable. -/
def conjU8 (seed : SeedP) : Option Nat :=
  some ((seed.prng).1 % 256)

/-- The single error of the engine (`pbt/src/lib.rs`):
a witness could not be found in time. -/
inductive NotFound : Type
  | mk : NotFound
deriving DecidableEq, Repr

/-- The trial loop of `witness` (`pbt/src/lib.rs`) over an explicit list of
trial seeds: conjure one candidate per seed, return `Err(NotFound)` as soon
as conjuring fails, minimize and return the first candidate satisfying the
predicate, and fail after the seeds run out. -/
def witnessList (conj : SeedP → Option T) (p : T → Bool)
    (minim : T → (T → Bool) → T) : List SeedP → Except NotFound T
  | [] => .error .mk
  | seed :: rest =>
    match conj seed with
    | none => .error .mk
    | some w => if p w then .ok (minim w p) else witnessList conj p minim rest

/-- `witness::<u8>` (`pbt/src/lib.rs`) applied to the predicate
`|&u| u >= 42`: 1000 trials over `conjure::seeds()`. -/
def witnessU8ge42 : Except NotFound Nat :=
  witnessList conjU8 (fun u => 42 ≤ u) minimalU8 (seedsList 1000)

/-- `Result<T, E>::conjure` (`pbt/src/impls/result.rs`): dispatch on the
pair of cardinalities computed at compile time; with both sides inhabited,
one coin flip picks the variant.  `Sum.inl` is Rust's `Ok`, `Sum.inr` is
`Err`; an outer `none` is `Err(Uninstantiable)`. -/
def resultConjure (cT cE : Cardinality) (conjT : SeedP → Option α)
    (conjE : SeedP → Option ε) (seed : SeedP) : Option (α ⊕ ε) :=
  match cT, cE with
  | .Empty, .Empty => none
  | .Empty, _ => (conjE seed).map Sum.inr
  | _, .Empty => (conjT seed).map Sum.inl
  | _, _ =>
    let (b, seed') := seed.prngBool
    if b then (conjE seed').map Sum.inr else (conjT seed').map Sum.inl

/-- `Result<T, E>::leaf` (`pbt/src/impls/result.rs`): identical dispatch,
delegating to the component `leaf` functions. -/
def resultLeaf (cT cE : Cardinality) (leafT : SeedP → Option α)
    (leafE : SeedP → Option ε) (seed : SeedP) : Option (α ⊕ ε) :=
  match cT, cE with
  | .Empty, .Empty => none
  | .Empty, _ => (leafE seed).map Sum.inr
  | _, .Empty => (leafT seed).map Sum.inl
  | _, _ =>
    let (b, seed') := seed.prngBool
    if b then (leafE seed').map Sum.inr else (leafT seed').map Sum.inl

/-- `Shrink::step` for `Result<T, E>` (`pbt/src/impls/result.rs`): shrink
the payload of whichever variant is present, re-wrapping the result in the
same variant (`.map(Ok)` / `.map(Err)`); the property sees re-wrapped
candidates.  `stepA`/`stepE` are the component `step` functions, with
`FnMut` properties threaded as explicit state `σ`. -/
def resultStep (stepA : α → (α → σ → Bool × σ) → σ → Option α × σ)
    (stepE : ε → (ε → σ → Bool × σ) → σ → Option ε × σ)
    (x : α ⊕ ε) (property : (α ⊕ ε) → σ → Bool × σ) (s : σ) :
    Option (α ⊕ ε) × σ :=
  match x with
  | .inl ok =>
    let (r, s') := stepA ok (fun t st => property (.inl t) st) s
    (r.map .inl, s')
  | .inr err =>
    let (r, s') := stepE err (fun e st => property (.inr e) st) s
    (r.map .inr, s')

/-- `Count for Vec<T>` (`src/impls/vec.rs`): an empty element type still
admits the empty vector (`Finite`); otherwise vectors are `Infinite`. -/
def vecCard (cT : Cardinality) : Cardinality :=
  match cT with
  | .Empty => .Finite
  | .Finite | .Infinite => .Infinite

/-- Every child size handed out by `partGoS` is bounded by any bound on the
boundary values it walks (each size is a difference of two boundaries). -/
lemma partGoS_snd_le {bound : Nat} :
    ∀ {n bs s}, (∀ x ∈ bs, x ≤ bound) →
      ∀ c ∈ (partGoS n bs s).1, c.2 ≤ bound := by
  intro n
  induction n with
  | zero => intro bs s _ c hc; simp [partGoS] at hc
  | succ k ih =>
    intro bs s hbs c hc
    match bs with
    | [] => simp [partGoS] at hc
    | [b] => simp [partGoS] at hc
    | b0 :: b1 :: rest =>
      rw [partGoS] at hc
      simp only [List.mem_cons] at hc
      rcases hc with hc | hc
      · subst hc
        exact le_trans (Nat.sub_le b0 b1) (hbs b0 (by simp))
      · exact ih (fun x hx => hbs x (List.mem_cons_of_mem b0 hx)) c hc

/-- `partZeroS` hands out only zero sizes. -/
lemma partZeroS_snd_eq :
    ∀ {n s} (c : SeedS × Nat), c ∈ (partZeroS n s).1 → c.2 = 0 := by
  intro n
  induction n with
  | zero => intro s c hc; simp [partZeroS] at hc
  | succ k ih =>
    intro s c hc
    rw [partZeroS] at hc
    simp only [List.mem_cons] at hc
    rcases hc with hc | hc
    · subst hc; rfl
    · exact ih c hc

/-- Membership is preserved by the descending sort. -/
lemma mem_sortDesc {x : Nat} {l : List Nat} : x ∈ sortDesc l ↔ x ∈ l :=
  (List.perm_insertionSort (· ≥ ·) l).mem_iff

/-- Boundary samples are drawn `% m`, hence below `m`. -/
lemma drawSamplesS_mem_lt {m : Nat} (hm : 0 < m) :
    ∀ {n : Nat} {s : SeedS}, ∀ x ∈ (drawSamplesS n m s).1, x < m := by
  intro n
  induction n with
  | zero => intro s x hx; simp [drawSamplesS] at hx
  | succ k ih =>
    intro s x hx
    rw [drawSamplesS] at hx
    simp only [List.mem_cons] at hx
    rcases hx with rfl | hx
    · exact Nat.mod_lt _ hm
    · exact ih _ hx

/-- Every child size handed out by `Seed::partition` (`src/conjure.rs`) is
at most the total budget being split. -/
lemma partitionS_snd_le {s : SeedS} {size n : Nat} :
    ∀ c ∈ (partitionS s size n).1, c.2 ≤ size := by
  intro c hc
  rw [partitionS] at hc
  by_cases hz : size ≠ 0
  · rw [if_pos hz] at hc
    refine partGoS_snd_le (fun x hx => ?_) c hc
    rw [mem_sortDesc] at hx
    simp only [List.mem_cons] at hx
    rcases hx with rfl | rfl | hx
    · exact Nat.zero_le _
    · exact le_rfl
    · have hmem := (drawSamplesS_mem_lt (Nat.pos_of_ne_zero hz)) x hx
      exact le_of_lt hmem
  · rw [if_neg hz] at hc
    rw [partZeroS_snd_eq c hc]
    exact Nat.zero_le _

/-- `Seed::should_recurse::<2>` (`src/conjure.rs`) as consumed by
`Vec::conjure` (`src/impls/vec.rs`), whose `while let` destructures the
two-element array into `[(head_seed, head_size), (tail_seed, tail_size)]`.
The catch-all arm is unreachable: `partitionS` with `n = 2` always returns
exactly two children. -/
def shouldRecurse2 (s : SeedS) (size : Nat) :
    Option ((SeedS × Nat) × (SeedS × Nat)) × SeedS :=
  match shouldRecurseS s size 2 with
  | (some (a :: b :: _), s') => (some (a, b), s')
  | (some _, s') => (none, s')
  | (none, s') => (none, s')

/-- When `should_recurse` continues, every child's budget is strictly below
the incoming budget (the children share `size - 1`): the measure that makes
`Vec::conjure`'s generation loop terminate. -/
lemma shouldRecurse2_some_lt {s s' : SeedS} {size : Nat}
    {a b : SeedS × Nat} :
    shouldRecurse2 s size = (some (a, b), s') → b.2 < size := by
  intro h
  rw [shouldRecurse2] at h
  rcases hsr : shouldRecurseS s size 2 with ⟨cs, s₁⟩
  rw [hsr] at h
  match cs with
  | none => simp at h
  | some [] => simp at h
  | some [_] => simp at h
  | some (a' :: b' :: rest) =>
    simp only [Option.some.injEq, Prod.mk.injEq] at h
    obtain ⟨⟨ha, hb⟩, _⟩ := h
    subst ha hb
    match size with
    | 0 => simp [shouldRecurseS] at hsr
    | rem + 1 =>
      rw [shouldRecurseS] at hsr
      have hble : b'.2 ≤ rem := by
        by_cases hfit : rem + 2 < U64
        · rw [if_pos hfit] at hsr
          rcases hout : (SeedS.prng s) with ⟨out, s₂⟩
          rw [hout] at hsr
          by_cases hzero : (out % U64) % (rem + 2) == 0
          · simp [hzero] at hsr
          · simp only [hzero, if_false, Bool.false_eq_true] at hsr
            rcases hpart : partitionS s₂ rem 2 with ⟨cs₂, s₃⟩
            rw [hpart] at hsr
            simp only [Prod.mk.injEq, Option.some.injEq] at hsr
            have hmem : b' ∈ cs₂ := by
              rw [hsr.1]
              simp
            have hle := partitionS_snd_le b' (by rwa [hpart])
            exact hle
        · rw [if_neg hfit] at hsr
          rcases hpart : partitionS s rem 2 with ⟨cs₂, s₃⟩
          rw [hpart] at hsr
          simp only [Prod.mk.injEq, Option.some.injEq] at hsr
          have hmem : b' ∈ cs₂ := by
            rw [hsr.1]
            simp
          have hle := partitionS_snd_le b' (by rwa [hpart])
          exact hle
      omega

/-- The generation loop of `Vec::<T>::conjure` (`src/impls/vec.rs`) for a
non-empty element type: while `should_recurse` continues, conjure one
element from the head allotment and carry on with the tail allotment,
short-circuiting the whole call on an uninstantiable element. -/
def vecConjureGo (conjT : SeedS → Nat → Option α) (seed : SeedS)
    (size : Nat) : Option (List α) :=
  match hrec : shouldRecurse2 seed size with
  | (none, _) => some []
  | (some ((headSeed, headSize), (tailSeed, tailSize)), _) =>
    match conjT headSeed headSize with
    | none => none
    | some head => (vecConjureGo conjT tailSeed tailSize).map (head :: ·)
termination_by size
decreasing_by exact shouldRecurse2_some_lt hrec

/-- `Vec::<T>::conjure` (`src/impls/vec.rs`): an `Empty` element type
yields the empty vector immediately; otherwise run the generation loop. -/
def vecConjure (cT : Cardinality) (conjT : SeedS → Nat → Option α)
    (seed : SeedS) (size : Nat) : Option (List α) :=
  match cT with
  | .Empty => some []
  | .Finite | .Infinite => vecConjureGo conjT seed size

/-- `Vec::<T>::leaf` (`src/impls/vec.rs`): always the empty vector. -/
def vecLeaf (_seed : SeedS) : Option (List α) :=
  some []

/-- State of `CartesianProduct` (`pbt/src/iter.rs`): a `Cache` over the
head iterator (the cached item plus the not-yet-pulled items) and an
`AutoReload` over the tail (`fuse = some rem` is `Fuse::Active` with `rem`
still to yield, `none` is `Fuse::Inactive`); `reload` is the (constant)
sequence produced by the tail factory on every call. -/
structure CPState (α β : Type) : Type where
  cache : Option α
  headRest : List α
  fuse : Option (List β)
  reload : List β

/-- `CartesianProduct::new` (`pbt/src/iter.rs`): fresh `Cache` (nothing
cached) and `AutoReload` (inactive). -/
def CPState.new (head : List α) (tail : List β) : CPState α β :=
  { cache := none, headRest := head, fuse := none, reload := tail }

/-- `Iterator::next` for `CartesianProduct` (`pbt/src/iter.rs`): pull (or
replay) a head item; pull a tail item through `AutoReload` (reloading it
lazily when inactive) and emit the pair; at a tail pass boundary, clear the
head cache and loop. -/
def cpNext : CPState α β → Option (α × β) × CPState α β
  | ⟨none, [], fuse, tl⟩ => (none, ⟨none, [], fuse, tl⟩)
  | ⟨none, h :: hr, some (t :: rem), tl⟩ =>
    (some (h, t), ⟨some h, hr, some rem, tl⟩)
  | ⟨none, _ :: hr, some [], tl⟩ => cpNext ⟨none, hr, none, tl⟩
  | ⟨none, h :: hr, none, t :: tl⟩ =>
    (some (h, t), ⟨some h, hr, some tl, t :: tl⟩)
  | ⟨none, _ :: hr, none, []⟩ => cpNext ⟨none, hr, none, []⟩
  | ⟨some h, hr, some (t :: rem), tl⟩ =>
    (some (h, t), ⟨some h, hr, some rem, tl⟩)
  | ⟨some _, hr, some [], tl⟩ => cpNext ⟨none, hr, none, tl⟩
  | ⟨some h, hr, none, t :: tl⟩ =>
    (some (h, t), ⟨some h, hr, some tl, t :: tl⟩)
  | ⟨some _, hr, none, []⟩ => cpNext ⟨none, hr, none, []⟩
termination_by s => 2 * s.headRest.length + (if s.cache.isSome then 1 else 0)
decreasing_by all_goals simp_arith

/-- Drive `CartesianProduct` for at most `fuel` calls to `next`, collecting
the emitted pairs and stopping at the first `None`. -/
def cpRun (s : CPState α β) : Nat → List (α × β) × CPState α β
  | 0 => ([], s)
  | fuel + 1 =>
    match cpNext s with
    | (none, s') => ([], s')
    | (some xy, s') =>
      let (rest, s'') := cpRun s' fuel
      (xy :: rest, s'')

/-- `Decomposition` (`src/decompose.rs`): a binary tree with nothing at
each node, represented as a vector of subtrees. -/
inductive Decomposition : Type
  | mk : List Decomposition → Decomposition

/-- The element-removal loop of `Decomposition::shrink_horizontal`
(`src/decompose.rs`): walk `index` from `acc.len()` down; at each step
remove the element at `index - 1`; keep the removal (and restart the scan
from the new end) when the property still holds, otherwise move down one
index.  The out-of-bounds guard mirrors `Vec::remove`'s panic freedom: it
is unreachable because `index` never exceeds `acc.len()`. -/
def removalGo (p : List Decomposition → Bool)
    (acc : List Decomposition) (index : Nat) : List Decomposition :=
  match index with
  | 0 => acc
  | i + 1 =>
    if hi : i < acc.length then
      let ablated := acc.eraseIdx i
      if p ablated then removalGo p ablated ablated.length
      else removalGo p acc i
    else acc
termination_by (acc.length, index)
decreasing_by
all_goals first
  | exact Prod.Lex.left _ _ (by rw [List.length_eraseIdx_of_lt hi]; omega)
  | exact Prod.Lex.right _ (by omega)

/-- The element-removal phase (phase 2) of
`Decomposition::shrink_horizontal` (`src/decompose.rs`), applied to the
slice surviving the contiguous phase: `index` starts at `acc.len()`. -/
def removalPhase (p : List Decomposition → Bool)
    (acc : List Decomposition) : List Decomposition :=
  removalGo p acc acc.length

/-- The documented protocol invariant (`pbt/src/conjure.rs`): a generation
function "must return `None` if and only if this type is uninstantiable",
i.e. it fails on every seed when the cardinality is `Empty` and succeeds on
every seed otherwise. -/
def StrongInv (c : Cardinality) (conj : SeedP → Option α) : Prop :=
  match c with
  | .Empty => ∀ s, conj s = none
  | .Finite | .Infinite => ∀ s, ∃ v, conj s = some v

/-- The same invariant for the earlier design (`src/conjure.rs`), whose
generation functions also take a size budget. -/
def StrongInvS (c : Cardinality) (conj : SeedS → Nat → Option α) : Prop :=
  match c with
  | .Empty => ∀ sd sz, conj sd sz = none
  | .Finite | .Infinite => ∀ sd sz, ∃ v, conj sd sz = some v

/-! ## Theorems -/

/-- C10: Shrinking a `Result<T, E>` never changes its variant: for every
value and every (stateful) property, `step` applied to `Ok(t)` returns
either `None` or `Some(Ok(..))`, and `step` applied to `Err(e)` returns
either `None` or `Some(Err(..))` — an `Err` counterexample is never
replaced by an `Ok` value, whatever the component `step` functions do. -/
theorem resultStep_preserves_variant {α ε σ : Type}
    (stepA : α → (α → σ → Bool × σ) → σ → Option α × σ)
    (stepE : ε → (ε → σ → Bool × σ) → σ → Option ε × σ)
    (x : α ⊕ ε) (property : (α ⊕ ε) → σ → Bool × σ) (s : σ) :
    ((∃ t, x = Sum.inl t) →
      (resultStep stepA stepE x property s).1 = none ∨
        ∃ t', (resultStep stepA stepE x property s).1 = some (Sum.inl t')) ∧
    ((∃ e, x = Sum.inr e) →
      (resultStep stepA stepE x property s).1 = none ∨
        ∃ e', (resultStep stepA stepE x property s).1 = some (Sum.inr e')) := by
  constructor
  · rintro ⟨t, rfl⟩
    rw [resultStep]
    rcases stepA t (fun t' st => property (Sum.inl t') st) s with ⟨r, s'⟩
    match r with
    | none => exact Or.inl rfl
    | some t' => exact Or.inr ⟨t', rfl⟩
  · rintro ⟨e, rfl⟩
    rw [resultStep]
    rcases stepE e (fun e' st => property (Sum.inr e') st) s with ⟨r, s'⟩
    match r with
    | none => exact Or.inl rfl
    | some e' => exact Or.inr ⟨e', rfl⟩

/-- Closed instance of `resultStep_preserves_variant` at the 8-bit ladder
and a concrete `Ok` value. -/
theorem resultStep_preserves_variant_witness :
    (resultStep (α := Nat) (ε := Nat) (σ := Unit)
        (fun a q u => stepU 8 a q u) (fun e q u => stepU 8 e q u)
        (Sum.inl 5) (fun _ u => (false, u)) ()).1 = none ∨
      ∃ t', (resultStep (α := Nat) (ε := Nat) (σ := Unit)
        (fun a q u => stepU 8 a q u) (fun e q u => stepU 8 e q u)
        (Sum.inl 5) (fun _ u => (false, u)) ()).1 = some (Sum.inl t') :=
  (resultStep_preserves_variant (fun a q u => stepU 8 a q u)
    (fun e q u => stepU 8 e q u) (Sum.inl 5) (fun _ u => (false, u)) ()).1
    ⟨5, rfl⟩

/-- The pure-property ladder from shift `j` computes exactly `find?` over
the spec's candidate list from shift `j`. -/
lemma stepGo_pure_eq {w x : Nat} (p : Nat → Bool) (hx : x < 2 ^ w) :
    ∀ j, (stepGo w x (fun n _ => (p n, ())) j ()).1
      = (ladderCandidates x j).find? p := by
  intro j
  induction' hk : w - j with k ih generalizing j
  · have hwj : w ≤ j := Nat.le_of_sub_eq_zero hk
    have hz : x >>> j = 0 := by
      rw [Nat.shiftRight_eq_div_pow]
      exact Nat.div_eq_of_lt
        (lt_of_lt_of_le hx (Nat.pow_le_pow_right (by omega) hwj))
    rw [stepGo, dif_pos hwj, ladderCandidates, dif_pos hz]
    simp
  · have hwj : ¬ w ≤ j := by omega
    rw [stepGo, dif_neg hwj]
    by_cases hz : x >>> j = 0
    · rw [if_pos hz, ladderCandidates, dif_pos hz]
      simp
    · rw [if_neg hz, ladderCandidates, dif_neg hz]
      by_cases hp : p (x - x >>> j) = true
      · simp [hp]
      · simp only [Bool.not_eq_true] at hp
        have hr : List.find? p ((x - x >>> j) :: ladderCandidates x (j + 1))
            = List.find? p (ladderCandidates x (j + 1)) := by
          rw [List.find?_cons_of_neg]
          simp [hp]
        rw [hr]
        simp only [hp, if_false]
        exact ih (j + 1) (by omega)

/-- Any spec-listed candidate is strictly smaller than the value
being shrunk. -/
lemma ladderCandidates_mem_lt {x : Nat} :
    ∀ {k d : Nat}, d ∈ ladderCandidates x k → d < x := by
  intro k d hd
  induction' hfuel : (x + 1) - k with f ih generalizing k
  · rw [ladderCandidates] at hd
    have hk : x >>> k = 0 := by
      rw [Nat.shiftRight_eq_div_pow]
      refine Nat.div_eq_of_lt (lt_of_lt_of_le (Nat.lt_two_pow x) ?_)
      exact Nat.pow_le_pow_right (by omega) (by omega)
    rw [dif_pos hk] at hd
    simp at hd
  · rw [ladderCandidates] at hd
    by_cases hz : x >>> k = 0
    · rw [dif_pos hz] at hd
      simp at hd
    · rw [dif_neg hz] at hd
      simp only [List.mem_cons] at hd
      rcases hd with rfl | hd
      · have h1 : 0 < x >>> k := Nat.pos_of_ne_zero hz
        have h2 : x >>> k ≤ x := by
          rw [Nat.shiftRight_eq_div_pow]
          exact Nat.div_le_self x (2 ^ k)
        omega
      · exact ih hd (by omega)

/-- C6: for every `w`-bit unsigned integer `x` and predicate `p`, `step`
tests the candidates `x - (x >> k)` for `k = 0, 1, 2, ...` in increasing
order, stopping when `x >> k` becomes `0`, and returns `Some` of the first
candidate on which `p` holds (`find?` over the spec's candidate list), or
`None` if none succeeds; every returned candidate is strictly smaller than
`x`, and for `x = 0` the result is always `None`. -/
theorem unsigned_step_ladder (w x : Nat) (p : Nat → Bool) (hx : x < 2 ^ w) :
    (stepU w x (fun n _ => (p n, ())) ()).1 = (ladderCandidates x 0).find? p
    ∧ (∀ d, (stepU w x (fun n _ => (p n, ())) ()).1 = some d →
        p d = true ∧ d < x)
    ∧ (stepU w 0 (fun n _ => (p n, ())) ()).1 = none := by
  have hmain := stepGo_pure_eq p hx 0
  refine ⟨hmain, ?_, ?_⟩
  · intro d hd
    rw [stepU] at hd
    rw [hmain] at hd
    exact ⟨List.find?_some hd,
      ladderCandidates_mem_lt (List.mem_of_find?_eq_some hd)⟩
  · rw [stepU, stepGo]
    by_cases hw : w ≤ 0
    · rw [dif_pos hw]
    · rw [dif_neg hw]
      simp

/-- Closed instance of `unsigned_step_ladder` at `w = 8`, `x = 200`,
`p = (· ≤ 10)`. -/
theorem unsigned_step_ladder_witness :
    200 < 2 ^ 8 ∧
      ((stepU 8 200 (fun n _ => (decide (n ≤ 10), ())) ()).1
          = (ladderCandidates 200 0).find? (fun n => decide (n ≤ 10))
        ∧ (∀ d, (stepU 8 200 (fun n _ => (decide (n ≤ 10), ())) ()).1
              = some d → decide (d ≤ 10) = true ∧ d < 200)
        ∧ (stepU 8 0 (fun n _ => (decide (n ≤ 10), ())) ()).1 = none) :=
  ⟨by decide, unsigned_step_ladder 8 200 (fun n => decide (n ≤ 10)) (by decide)⟩

/-- `drawSamplesS` draws exactly `n` samples. -/
lemma drawSamplesS_length :
    ∀ {n m : Nat} {s : SeedS}, ((drawSamplesS n m s).1).length = n := by
  intro n
  induction n with
  | zero => intro m s; rfl
  | succ k ih => intro m s; rw [drawSamplesS]; simpa using ih

/-- `partGoS` produces one child per requested slot when enough boundaries
are supplied. -/
lemma partGoS_length :
    ∀ {n : Nat} {bs : List Nat} {s : SeedS}, n + 1 ≤ bs.length →
      ((partGoS n bs s).1).length = n := by
  intro n
  induction n with
  | zero => intro bs s _; rfl
  | succ k ih =>
    intro bs s hlen
    match bs with
    | [] => simp at hlen
    | [b] => simp at hlen
    | b0 :: b1 :: rest =>
      rw [partGoS]
      simpa using ih (by simpa using hlen)

/-- `partZeroS` produces `n` children. -/
lemma partZeroS_length : ∀ {n : Nat} {s : SeedS},
    ((partZeroS n s).1).length = n := by
  intro n
  induction n with
  | zero => intro s; rfl
  | succ k ih => intro s; rw [partZeroS]; simpa using ih

/-- `partZeroS` hands out a total budget of `0`. -/
lemma partZeroS_sum : ∀ {n : Nat} {s : SeedS},
    ((((partZeroS n s).1).map Prod.snd).sum) = 0 := by
  intro n
  induction n with
  | zero => intro s; rfl
  | succ k ih => intro s; rw [partZeroS]; simpa using ih

/-- In a descending list, the last element is a lower bound. -/
lemma sorted_getLast_le {l : List Nat} (hs : List.Sorted (· ≥ ·) l)
    (hne : l ≠ []) : ∀ x ∈ l, l.getLast hne ≤ x := by
  induction l with
  | nil => exact absurd rfl hne
  | cons a t ih =>
    intro x hx
    match t with
    | [] =>
      simp only [List.mem_singleton] at hx
      subst hx
      exact le_rfl
    | b :: t' =>
      rw [List.getLast_cons (by simp)]
      rcases List.mem_cons.mp hx with rfl | hx'
      · have hmem := List.getLast_mem (l := b :: t') (by simp)
        exact le_trans (ih (List.sorted_cons.mp hs).2 (by simp) _ hmem)
          le_rfl |>.trans ((List.sorted_cons.mp hs).1 _ hmem)
      · exact ih (List.sorted_cons.mp hs).2 (by simp) x hx'

/-- Telescoping: walking a descending boundary list, the child sizes plus
the final boundary add back up to the first boundary. -/
lemma partGoS_sum :
    ∀ (rest : List Nat) (b0 : Nat) (s : SeedS),
      List.Sorted (· ≥ ·) (b0 :: rest) →
      ((((partGoS rest.length (b0 :: rest) s).1).map Prod.snd).sum)
          + (b0 :: rest).getLast (by simp) = b0 := by
  intro rest
  induction rest with
  | nil => intro b0 s _; simp [partGoS]
  | cons b1 rest' ih =>
    intro b0 s hs
    have hlen : (b1 :: rest').length = rest'.length + 1 := rfl
    rw [List.getLast_cons (by simp)]
    rw [show (b1 :: rest').length = rest'.length + 1 from rfl, partGoS]
    have hb01 : b1 ≤ b0 := (List.sorted_cons.mp hs).1 b1 (by simp)
    have htail := ih b1 (SeedS.split s).2 (List.sorted_cons.mp hs).2
    simp only [List.map_cons, List.sum_cons]
    omega

/-- The head of the sorted boundary list of a positive `partition` budget is
the budget itself, and its last element is `0`. -/
lemma sortDesc_bounds {size : Nat} {samples : List Nat}
    (hsam : ∀ x ∈ samples, x < size) {b0 : Nat} {rest : List Nat}
    (hcons : sortDesc (0 :: size :: samples) = b0 :: rest) :
    b0 = size ∧ (b0 :: rest).getLast (by simp) = 0 := by
  have hsort0 : List.Sorted (· ≥ ·) (sortDesc (0 :: size :: samples)) :=
    List.sorted_insertionSort _ _
  have hperm0 : List.Perm (sortDesc (0 :: size :: samples))
      (0 :: size :: samples) :=
    List.perm_insertionSort _ _
  rw [hcons] at hsort0 hperm0
  have hmem_size : size ∈ b0 :: rest := hperm0.mem_iff.mpr (by simp)
  have hmem_zero : (0 : Nat) ∈ b0 :: rest := hperm0.mem_iff.mpr (by simp)
  have hbound : ∀ x ∈ b0 :: rest, x ≤ size := by
    intro x hx
    have hx' := hperm0.mem_iff.mp hx
    simp only [List.mem_cons] at hx'
    rcases hx' with rfl | rfl | hx''
    · exact Nat.zero_le _
    · exact le_rfl
    · exact le_of_lt (hsam x hx'')
  constructor
  · have h1 : b0 ≤ size := hbound b0 (by simp)
    have h2 : size ≤ b0 := by
      rcases List.mem_cons.mp hmem_size with rfl | hx'
      · exact le_rfl
      · exact (List.sorted_cons.mp hsort0).1 size hx'
    omega
  · have := sorted_getLast_le hsort0 (by simp) 0 hmem_zero
    omega

/-- `splitGo` (`pbt/src/conjure.rs`) produces one child per slot. -/
lemma splitGo_length :
    ∀ {n : Nat} {bs : List Nat} {s : SeedP}, n + 1 ≤ bs.length →
      (SeedP.splitGo n bs s).length = n := by
  intro n
  induction n with
  | zero => intro bs s _; rfl
  | succ k ih =>
    intro bs s hlen
    match bs with
    | [] => simp at hlen
    | [b] => simp at hlen
    | b0 :: b1 :: rest =>
      rw [SeedP.splitGo]
      simpa using ih (by simpa using hlen)

/-- `splitZero` produces `n` children. -/
lemma splitZero_length : ∀ {n : Nat} {s : SeedP},
    (SeedP.splitZero n s).length = n := by
  intro n
  induction n with
  | zero => intro s; rfl
  | succ k ih => intro s; rw [SeedP.splitZero]; simpa using ih

/-- `splitZero` hands out a total budget of `0`. -/
lemma splitZero_sum : ∀ {n : Nat} {s : SeedP},
    (((SeedP.splitZero n s).map SeedP.size).sum) = 0 := by
  intro n
  induction n with
  | zero => intro s; rfl
  | succ k ih => intro s; rw [SeedP.splitZero]; simpa using ih

/-- Telescoping for `Seed::split` (`pbt/src/conjure.rs`). -/
lemma splitGo_sum :
    ∀ (rest : List Nat) (b0 : Nat) (s : SeedP),
      List.Sorted (· ≥ ·) (b0 :: rest) →
      (((SeedP.splitGo rest.length (b0 :: rest) s).map SeedP.size).sum)
          + (b0 :: rest).getLast (by simp) = b0 := by
  intro rest
  induction rest with
  | nil => intro b0 s _; simp [SeedP.splitGo]
  | cons b1 rest' ih =>
    intro b0 s hs
    rw [List.getLast_cons (by simp)]
    rw [show (b1 :: rest').length = rest'.length + 1 from rfl, SeedP.splitGo]
    have hb01 : b1 ≤ b0 := (List.sorted_cons.mp hs).1 b1 (by simp)
    have htail := ih b1 (SeedP.prng s).2 (List.sorted_cons.mp hs).2
    simp only [List.map_cons, List.sum_cons]
    omega

/-- `SeedP.drawSamples` draws exactly `n` samples, all below the modulus. -/
lemma drawSamplesP_spec {m : Nat} (hm : 0 < m) :
    ∀ {n : Nat} {s : SeedP}, ((s.drawSamples n m).1).length = n
      ∧ ∀ x ∈ (s.drawSamples n m).1, x < m := by
  intro n
  induction n with
  | zero => intro s; exact ⟨rfl, by intro x hx; simp [SeedP.drawSamples] at hx⟩
  | succ k ih =>
    intro s
    rw [SeedP.drawSamples]
    refine ⟨by simpa using (ih (s := (s.prng).2)).1, ?_⟩
    intro x hx
    simp only [List.mem_cons] at hx
    rcases hx with rfl | hx
    · exact Nat.mod_lt _ hm
    · exact (ih (s := (s.prng).2)).2 x hx

/-- `Seed::partition` (`src/conjure.rs`) hands out exactly `n` children
whose budgets sum to the full budget. -/
lemma partitionS_spec (size n : Nat) (hN : 1 ≤ n) (s : SeedS) :
    ((partitionS s size n).1).length = n
    ∧ (((partitionS s size n).1).map Prod.snd).sum = size := by
  by_cases hS : size = 0
  · rw [hS, partitionS, if_neg (by simp)]
    exact ⟨partZeroS_length, partZeroS_sum⟩
  · have hpos : 0 < size := Nat.pos_of_ne_zero hS
    rcases hdraw : drawSamplesS (n - 1) size s with ⟨samples, s1⟩
    have hsamlen : samples.length = n - 1 := by
      have h0 := drawSamplesS_length (n := n - 1) (m := size) (s := s)
      rw [hdraw] at h0
      exact h0
    have hsam_lt : ∀ x ∈ samples, x < size := by
      intro x hx
      have h0 := drawSamplesS_mem_lt hpos (n := n - 1) (s := s) x
      rw [hdraw] at h0
      exact h0 hx
    have hlen : (sortDesc (0 :: size :: samples)).length = n + 1 := by
      rw [sortDesc, List.length_insertionSort]
      simp only [List.length_cons, hsamlen]
      omega
    rcases hcons : sortDesc (0 :: size :: samples) with _ | ⟨b0, rest⟩
    · rw [hcons] at hlen
      simp at hlen
    · obtain ⟨hb0, hlast⟩ := sortDesc_bounds hsam_lt hcons
      have hrest : rest.length = n := by
        rw [hcons] at hlen
        simpa using hlen
      have hsort : List.Sorted (· ≥ ·) (b0 :: rest) := by
        have h0 : List.Sorted (· ≥ ·) (sortDesc (0 :: size :: samples)) :=
          List.sorted_insertionSort _ _
        rwa [hcons] at h0
      constructor
      · rw [partitionS, if_pos hS]
        simp only [hdraw, hcons]
        exact partGoS_length (by simp [hrest])
      · rw [partitionS, if_pos hS]
        simp only [hdraw, hcons]
        have hsum := partGoS_sum rest b0 s1 hsort
        rw [hlast] at hsum
        rw [← hrest]
        omega

/-- `Seed::split` (`pbt/src/conjure.rs`) hands out exactly `n` children
whose size budgets sum to the consumed seed's own budget. -/
lemma seedSplit_spec (n : Nat) (hN : 1 ≤ n) (sp : SeedP) :
    (sp.split n).length = n
    ∧ ((sp.split n).map SeedP.size).sum = sp.size := by
  by_cases hS : sp.size = 0
  · rw [SeedP.split, if_neg (by simp [hS]), hS]
    exact ⟨splitZero_length, splitZero_sum⟩
  · have hpos : 0 < sp.size := Nat.pos_of_ne_zero hS
    rcases hdrawP : sp.drawSamples (n - 1) sp.size with ⟨samplesP, sp1⟩
    have hsamlenP : samplesP.length = n - 1 := by
      have h0 := (drawSamplesP_spec hpos (n := n - 1) (s := sp)).1
      rw [hdrawP] at h0
      exact h0
    have hsam_ltP : ∀ x ∈ samplesP, x < sp.size := by
      intro x hx
      have h0 := (drawSamplesP_spec hpos (n := n - 1) (s := sp)).2 x
      rw [hdrawP] at h0
      exact h0 hx
    have hlenP : (sortDesc (0 :: sp.size :: samplesP)).length = n + 1 := by
      rw [sortDesc, List.length_insertionSort]
      simp only [List.length_cons, hsamlenP]
      omega
    rcases hconsP : sortDesc (0 :: sp.size :: samplesP) with _ | ⟨c0, restP⟩
    · rw [hconsP] at hlenP
      simp at hlenP
    · obtain ⟨hc0, hlastP⟩ := sortDesc_bounds hsam_ltP hconsP
      have hrestP : restP.length = n := by
        rw [hconsP] at hlenP
        simpa using hlenP
      have hsortP : List.Sorted (· ≥ ·) (c0 :: restP) := by
        have h0 : List.Sorted (· ≥ ·) (sortDesc (0 :: sp.size :: samplesP)) :=
          List.sorted_insertionSort _ _
        rwa [hconsP] at h0
      constructor
      · rw [SeedP.split, if_pos hS]
        simp only [hdrawP, hconsP]
        exact splitGo_length (by simp [hrestP])
      · rw [SeedP.split, if_pos hS]
        simp only [hdrawP, hconsP]
        have hsum := splitGo_sum restP c0 sp1 hsortP
        rw [hlastP] at hsum
        rw [← hrestP]
        omega

/-- C4: for every total size `S ≥ 0` and child count `N ≥ 1`, the
stars-and-bars allocation — `partition::<N>(S)` in the earlier design and
`Seed::split::<N>()` on a seed whose `size` field is `S` in the canonical
design — returns exactly `N` children whose budgets are non-negative
(`Nat`-valued by construction) and sum exactly to `S`. -/
theorem partition_split_sizes (S N : Nat) (hN : 1 ≤ N) (s : SeedS)
    (sp : SeedP) (hsp : sp.size = S) :
    ((partitionS s S N).1).length = N
    ∧ (((partitionS s S N).1).map Prod.snd).sum = S
    ∧ (sp.split N).length = N
    ∧ ((sp.split N).map SeedP.size).sum = S := by
  subst hsp
  obtain ⟨h1, h2⟩ := partitionS_spec sp.size N hN s
  obtain ⟨h3, h4⟩ := seedSplit_spec N hN sp
  exact ⟨h1, h2, h3, h4⟩

/-- Closed instance of `partition_split_sizes` at `S = 7`, `N = 3`. -/
theorem partition_split_sizes_witness :
    1 ≤ 3
    ∧ (((partitionS ⟨42⟩ 7 3).1).length = 3
      ∧ (((partitionS ⟨42⟩ 7 3).1).map Prod.snd).sum = 7
      ∧ ((SeedP.mk 99 7).split 3).length = 3
      ∧ (((SeedP.mk 99 7).split 3).map SeedP.size).sum = 7) :=
  ⟨by decide, partition_split_sizes 7 3 (by decide) ⟨42⟩ (SeedP.mk 99 7) rfl⟩

/-- C3: `witness` returns `Err(NotFound)` in exactly two situations:
immediately, as soon as `conjure` fails on a trial (every earlier trial
having conjured a candidate that failed the predicate), or after every
trial seed conjured a candidate that failed the predicate; moreover for a
type whose `conjure` always reports `Uninstantiable` (cardinality `Empty`),
`witness` fails on the first trial, for any predicate. -/
theorem witness_notFound_iff {T : Type} (conj : SeedP → Option T)
    (p : T → Bool) (minim : T → (T → Bool) → T) (seeds : List SeedP) :
    (witnessList conj p minim seeds = .error .mk ↔
      (∃ pre s rest, seeds = pre ++ s :: rest
          ∧ (∀ t ∈ pre, ∃ w, conj t = some w ∧ p w = false)
          ∧ conj s = none)
        ∨ (∀ t ∈ seeds, ∃ w, conj t = some w ∧ p w = false))
    ∧ ((∀ s, conj s = none) → seeds ≠ [] →
        witnessList conj p minim seeds = .error .mk) := by
  constructor
  · induction seeds with
    | nil =>
      rw [witnessList]
      constructor
      · intro _
        exact Or.inr (by intro t ht; simp at ht)
      · intro _
        rfl
    | cons s rest ih =>
      rw [witnessList]
      rcases hconj : conj s with _ | w
      · constructor
        · intro _
          exact Or.inl ⟨[], s, rest, rfl, by intro t ht; simp at ht, hconj⟩
        · intro _
          rfl
      · rcases hp : p w with _ | _
        · simp only [hp, Bool.false_eq_true, if_false]
          rw [ih]
          constructor
          · intro h
            rcases h with ⟨pre, s', rest', hsplit, hpre, hnone⟩ | hall
            · exact Or.inl ⟨s :: pre, s', rest', by simp [hsplit], by
                intro t ht
                rcases List.mem_cons.mp ht with rfl | ht'
                · exact ⟨w, hconj, hp⟩
                · exact hpre t ht', hnone⟩
            · refine Or.inr ?_
              intro t ht
              rcases List.mem_cons.mp ht with rfl | ht'
              · exact ⟨w, hconj, hp⟩
              · exact hall t ht'
          · intro h
            rcases h with ⟨pre, s', rest', hsplit, hpre, hnone⟩ | hall
            · match pre, hsplit with
              | [], hsplit =>
                simp only [List.nil_append, List.cons.injEq] at hsplit
                rw [hsplit.1] at hconj
                rw [hconj] at hnone
                exact absurd hnone (by simp)
              | q :: pre', hsplit =>
                simp only [List.cons_append, List.cons.injEq] at hsplit
                exact Or.inl ⟨pre', s', rest', hsplit.2, by
                  intro t ht
                  exact hpre t (by simp [ht]), hnone⟩
            · exact Or.inr (fun t ht => hall t (by simp [ht]))
        · simp only [hp, if_true]
          constructor
          · intro h
            exact absurd h (by simp)
          · intro h
            rcases h with ⟨pre, s', rest', hsplit, hpre, hnone⟩ | hall
            · match pre, hsplit with
              | [], hsplit =>
                simp only [List.nil_append, List.cons.injEq] at hsplit
                rw [hsplit.1] at hconj
                rw [hconj] at hnone
                exact absurd hnone (by simp)
              | q :: pre', hsplit =>
                simp only [List.cons_append, List.cons.injEq] at hsplit
                obtain ⟨w', hw', hpw'⟩ := hpre s (by rw [hsplit.1]; simp)
                rw [hconj] at hw'
                obtain rfl : w = w' := by simpa using hw'
                rw [hp] at hpw'
                exact absurd hpw' (by simp)
            · obtain ⟨w', hw', hpw'⟩ := hall s (by simp)
              rw [hconj] at hw'
              obtain rfl : w = w' := by simpa using hw'
              rw [hp] at hpw'
              exact absurd hpw' (by simp)
  · intro hall hne
    match seeds, hne with
    | s :: rest, _ =>
      rw [witnessList, hall s]

/-- Closed instance of `witness_notFound_iff`: an always-uninstantiable
`conjure` (an empty enum) makes `witness` fail over the real 1000-seed
trial sequence, for an arbitrary predicate. -/
theorem witness_notFound_iff_witness :
    witnessList (T := Nat) (fun _ => none) (fun _ => false)
        (fun w _ => w) (seedsList 1000) = .error .mk :=
  (witness_notFound_iff (T := Nat) (fun _ => none) (fun _ => false)
      (fun w _ => w) (seedsList 1000)).2
    (fun _ => rfl) (by decide)

/-- The removal loop only ever deletes elements, and when it stops, no
single-element removal — at any index, index `0` included — can satisfy the
property: every index was offered on the final accumulator. -/
lemma removalGo_spec (p : List Decomposition → Bool) :
    ∀ (acc : List Decomposition) (idx : Nat), idx ≤ acc.length →
      (∀ j, idx ≤ j → j < acc.length → p (acc.eraseIdx j) = false) →
      (removalGo p acc idx).Sublist acc
      ∧ ∀ i, i < (removalGo p acc idx).length →
          p ((removalGo p acc idx).eraseIdx i) = false := by
  intro acc idx
  induction acc, idx using removalGo.induct p with
  | case1 acc =>
    intro _ htried
    rw [removalGo]
    exact ⟨List.Sublist.refl acc, fun i hi => htried i (Nat.zero_le i) hi⟩
  | case2 acc k hk ablated hcond ih =>
    intro hle _
    rw [removalGo, dif_pos hk, if_pos hcond]
    have hsub : (acc.eraseIdx k).Sublist acc := List.eraseIdx_sublist acc k
    have hrec := ih le_rfl (by omega)
    exact ⟨hrec.1.trans hsub, hrec.2⟩
  | case3 acc k hk ablated hcond ih =>
    intro hle htried
    rw [removalGo, dif_pos hk, if_neg hcond]
    refine ih (by omega) ?_
    intro j hij hjlen
    rcases Nat.eq_or_lt_of_le hij with rfl | hlt
    · simpa using hcond
    · exact htried j (by omega) hjlen
  | case4 acc k hk =>
    intro hle _
    omega

/-- C9 (amended): in the element-removal phase of the vector shrink, the
scan runs from the last index down to index `0` inclusive — index `0` is
offered like every other index (not skipped), restarting from the end after
each successful removal; consequently the surviving list is a sublist of
the input on which no single-element removal, index `0` included, satisfies
the property. -/
theorem removal_phase_offers_every_index (p : List Decomposition → Bool)
    (acc : List Decomposition) :
    (removalPhase p acc).Sublist acc
    ∧ ∀ i, i < (removalPhase p acc).length →
        p ((removalPhase p acc).eraseIdx i) = false := by
  rw [removalPhase]
  exact removalGo_spec p acc acc.length le_rfl (by omega)

unseal removalGo in
/-- C9 counterexample: with a property accepting everything, the removal
phase deletes the element at index `0` of a singleton list — so index `0`
is offered (and here removed) during phase 2, contradicting the claim that
index `0` is never a removal candidate. -/
theorem removal_phase_removes_index_zero :
    removalPhase (fun _ => true) [Decomposition.mk []] = []
    ∧ ([Decomposition.mk []] : List Decomposition).length = 1 :=
  ⟨rfl, rfl⟩

/-- Closed instance of `removal_phase_offers_every_index`. -/
theorem removal_phase_offers_every_index_witness :
    (removalPhase (fun l => decide (2 ≤ l.length))
        [Decomposition.mk [], Decomposition.mk [], Decomposition.mk []]).Sublist
      [Decomposition.mk [], Decomposition.mk [], Decomposition.mk []]
    ∧ ∀ i, i < (removalPhase (fun l => decide (2 ≤ l.length))
        [Decomposition.mk [], Decomposition.mk [], Decomposition.mk []]).length →
        (fun l => decide (2 ≤ l.length))
          ((removalPhase (fun l => decide (2 ≤ l.length))
            [Decomposition.mk [], Decomposition.mk [],
              Decomposition.mk []]).eraseIdx i) = false :=
  removal_phase_offers_every_index (fun l => decide (2 ≤ l.length))
    [Decomposition.mk [], Decomposition.mk [], Decomposition.mk []]

/-- The PRNG always returns a 64-bit value. -/
lemma wyrandGen_fst_lt (st : Nat) : (wyrandGen st).1 < U64 := by
  rw [wyrandGen]
  exact Nat.mod_lt _ (by rw [U64]; positivity)

/-- C5 (amended): `should_recurse` with budget `size` declines exactly when
the drawn prng value is congruent to `0` modulo `size + 1` (in the earlier
design a zero budget declines before drawing, which coincides with the
`mod 1` condition); when it instead continues, the earlier (partition)
design hands its children budgets summing to `size - 1`, but the canonical
(seed-field) design leaves the seed's `size` field unchanged at `size` —
no unit is deducted there. -/
theorem should_recurse_decline_and_budget (s : SeedS) (sp : SeedP)
    (size n : Nat) (hn : 1 ≤ n) (hfit : size + 1 < U64)
    (hfitp : sp.size + 1 < U64) :
    ((shouldRecurseS s size n).1 = none ↔ (s.prng).1 % (size + 1) = 0)
    ∧ (∀ cs s', shouldRecurseS s size n = (some cs, s') →
        (cs.map Prod.snd).sum = size - 1)
    ∧ ((sp.shouldRecurse).1 = false ↔ (sp.prng).1 % (sp.size + 1) = 0)
    ∧ ((sp.shouldRecurse).2).size = sp.size := by
  have hlt : ∀ st : Nat, (SeedS.prng ⟨st⟩).1 % U64 = (SeedS.prng ⟨st⟩).1 :=
    fun st => Nat.mod_eq_of_lt (wyrandGen_fst_lt st)
  refine ⟨?_, ?_, ?_, ?_⟩
  · match size with
    | 0 =>
      rw [shouldRecurseS]
      simp [Nat.mod_one]
    | rem + 1 =>
      rw [shouldRecurseS, if_pos hfit]
      rcases hout : s.prng with ⟨out, s1⟩
      have hout64 : out % U64 = out := by
        rcases s with ⟨st⟩
        have := hlt st
        rw [hout] at this
        exact this
      simp only [hout64]
      by_cases hz : out % (rem + 2) = 0
      · simp [hz]
      · simp only [hz, beq_iff_eq, if_neg hz]
        rcases partitionS s1 rem n with ⟨cs, s2⟩
        simp [hz]
  · intro cs s' hsr
    match size, hsr with
    | rem + 1, hsr =>
      rw [shouldRecurseS, if_pos hfit] at hsr
      rcases hout : s.prng with ⟨out, s1⟩
      rw [hout] at hsr
      by_cases hz : (out % U64) % (rem + 2) == 0
      · simp [hz] at hsr
      · rcases hpart : partitionS s1 rem n with ⟨cs₂, s₃⟩
        simp only [hz, Bool.false_eq_true, if_false, hpart,
          Prod.mk.injEq, Option.some.injEq] at hsr
        obtain ⟨hcs, _⟩ := hsr
        have hsum := (partitionS_spec rem n hn s1).2
        rw [hpart] at hsum
        simp only at hsum
        rw [← hcs]
        simpa using hsum
  · rw [SeedP.shouldRecurse, if_pos hfitp]
    rcases hout : sp.prng with ⟨out, s1⟩
    have hsame : s1.size = sp.size := by
      rcases sp with ⟨st, sz⟩
      rw [SeedP.prng] at hout
      have h2 := congrArg (fun z => z.2.size) hout
      simpa using h2.symm
    by_cases hz : out % (sp.size + 1) = 0
    · simp [hsame, hz]
    · simp [hsame, hz]
  · rw [SeedP.shouldRecurse, if_pos hfitp]
    rcases hout : sp.prng with ⟨out, s1⟩
    have hsame : s1.size = sp.size := by
      rcases sp with ⟨st, sz⟩
      rw [SeedP.prng] at hout
      have h2 := congrArg (fun z => z.2.size) hout
      simpa using h2.symm
    by_cases hz : out % (sp.size + 1) = 0
    · simp [hsame, hz]
    · simp [hsame, hz]

/-- Closed instance of `should_recurse_decline_and_budget` at concrete
seeds and budget `6` over two children. -/
theorem should_recurse_decline_and_budget_witness :
    ((shouldRecurseS ⟨0⟩ 6 2).1 = none ↔ ((⟨0⟩ : SeedS).prng).1 % 7 = 0)
    ∧ (∀ cs s', shouldRecurseS ⟨0⟩ 6 2 = (some cs, s') →
        (cs.map Prod.snd).sum = 5)
    ∧ (((SeedP.mk 1 5).shouldRecurse).1 = false
        ↔ ((SeedP.mk 1 5).prng).1 % 6 = 0)
    ∧ (((SeedP.mk 1 5).shouldRecurse).2).size = 5 :=
  should_recurse_decline_and_budget ⟨0⟩ (SeedP.mk 1 5) 6 2 (by decide)
    (by decide) (by decide)

/-- C5 counterexample: on the seed `{seed: 1, size: 5}` the canonical
design's `should_recurse` continues (returns `true`), yet the seed's
remaining budget afterwards is still `5` — not `4` as the claim's
"`size - 1`" would require: the decrement is commented out in the source. -/
theorem should_recurse_budget_counterexample :
    ((SeedP.mk 1 5).shouldRecurse).1 = true
    ∧ (((SeedP.mk 1 5).shouldRecurse).2).size = 5 := by
  constructor
  · rfl
  · rfl

/-- `Result::leaf` has literally the same dispatch structure as
`Result::conjure`, only delegating to the component `leaf` functions. -/
lemma resultLeaf_eq_resultConjure {α ε : Type} (cT cE : Cardinality)
    (f : SeedP → Option α) (g : SeedP → Option ε) :
    resultLeaf cT cE f g = resultConjure cT cE f g := rfl

/-- Arm unfolding: with both components inhabited, `Result::conjure` flips
a coin and delegates. -/
lemma resultConjure_not_empty {α ε : Type} (cT cE : Cardinality)
    (f : SeedP → Option α) (g : SeedP → Option ε) (s : SeedP)
    (hT : cT ≠ .Empty) (hE : cE ≠ .Empty) :
    resultConjure cT cE f g s
      = if (s.prngBool).1 = true then ((g (s.prngBool).2).map Sum.inr)
        else ((f (s.prngBool).2).map Sum.inl) := by
  cases cT <;> cases cE <;>
    first
      | exact absurd rfl hT
      | exact absurd rfl hE
      | rfl

/-- Arm unfolding: with only the `Ok` side empty, `Result::conjure`
delegates to the `Err` side. -/
lemma resultConjure_empty_left {α ε : Type} (cE : Cardinality)
    (f : SeedP → Option α) (g : SeedP → Option ε) (s : SeedP)
    (hE : cE ≠ .Empty) :
    resultConjure .Empty cE f g s = (g s).map Sum.inr := by
  cases cE <;> first | exact absurd rfl hE | rfl

/-- Arm unfolding: with only the `Err` side empty, `Result::conjure`
delegates to the `Ok` side. -/
lemma resultConjure_empty_right {α ε : Type} (cT : Cardinality)
    (f : SeedP → Option α) (g : SeedP → Option ε) (s : SeedP)
    (hT : cT ≠ .Empty) :
    resultConjure cT .Empty f g s = (f s).map Sum.inl := by
  cases cT <;> first | exact absurd rfl hT | rfl

/-- The protocol invariant is preserved by `Result`'s conjure dispatch. -/
lemma resultConjure_inv {α ε : Type} (cT cE : Cardinality)
    (f : SeedP → Option α) (g : SeedP → Option ε)
    (hf : StrongInv cT f) (hg : StrongInv cE g) :
    StrongInv (cT.sum cE) (resultConjure cT cE f g) := by
  have mixed : ∀ (cT' cE' : Cardinality), cT' ≠ .Empty → cE' ≠ .Empty →
      (∀ s, ∃ v, f s = some v) → (∀ s, ∃ v, g s = some v) →
      ∀ s, ∃ v, resultConjure cT' cE' f g s = some v := by
    intro cT' cE' hT' hE' hf' hg' s
    rw [resultConjure_not_empty cT' cE' f g s hT' hE']
    rcases hb : s.prngBool with ⟨b, s'⟩
    simp only [hb]
    cases b
    · simp only [Bool.false_eq_true, if_false]
      obtain ⟨v, hv⟩ := hf' s'
      exact ⟨Sum.inl v, by rw [hv]; rfl⟩
    · simp only [if_true]
      obtain ⟨v, hv⟩ := hg' s'
      exact ⟨Sum.inr v, by rw [hv]; rfl⟩
  cases cT <;> cases cE
  · intro s
    rfl
  · intro s
    obtain ⟨v, hv⟩ := hg s
    exact ⟨Sum.inr v, by
      rw [resultConjure_empty_left _ f g s (by decide), hv]; rfl⟩
  · intro s
    obtain ⟨v, hv⟩ := hg s
    exact ⟨Sum.inr v, by
      rw [resultConjure_empty_left _ f g s (by decide), hv]; rfl⟩
  · intro s
    obtain ⟨v, hv⟩ := hf s
    exact ⟨Sum.inl v, by
      rw [resultConjure_empty_right _ f g s (by decide), hv]; rfl⟩
  · exact mixed _ _ (by decide) (by decide) hf hg
  · exact mixed _ _ (by decide) (by decide) hf hg
  · intro s
    obtain ⟨v, hv⟩ := hf s
    exact ⟨Sum.inl v, by
      rw [resultConjure_empty_right _ f g s (by decide), hv]; rfl⟩
  · exact mixed _ _ (by decide) (by decide) hf hg
  · exact mixed _ _ (by decide) (by decide) hf hg

/-- `Result`'s conjure fails on every seed exactly when both component
cardinalities are `Empty`. -/
lemma resultConjure_none_iff {α ε : Type} (cT cE : Cardinality)
    (f : SeedP → Option α) (g : SeedP → Option ε)
    (hf : StrongInv cT f) (hg : StrongInv cE g) :
    (∀ s, resultConjure cT cE f g s = none) ↔ (cT = .Empty ∧ cE = .Empty) := by
  constructor
  · intro hall
    have hinv := resultConjure_inv cT cE f g hf hg
    rcases hsum : cT.sum cE with _ | _ | _
    · cases cT <;> cases cE <;> simp [Cardinality.sum] at hsum <;> simp
    · rw [hsum] at hinv
      obtain ⟨v, hv⟩ := hinv (SeedP.new 0)
      rw [hall (SeedP.new 0)] at hv
      exact absurd hv (by simp)
    · rw [hsum] at hinv
      obtain ⟨v, hv⟩ := hinv (SeedP.new 0)
      rw [hall (SeedP.new 0)] at hv
      exact absurd hv (by simp)
  · rintro ⟨rfl, rfl⟩ s
    rfl

/-- With an everywhere-instantiable element type, the `Vec` generation loop
never fails: it either stops (empty vector) or conses a conjured element. -/
lemma vecConjureGo_some {α : Type} (conjT : SeedS → Nat → Option α)
    (htot : ∀ sd sz, ∃ v, conjT sd sz = some v) :
    ∀ sd sz, ∃ l, vecConjureGo conjT sd sz = some l := by
  intro sd sz
  induction sd, sz using vecConjureGo.induct conjT with
  | case1 seed size snd hrec =>
    refine ⟨[], ?_⟩
    rw [vecConjureGo]
    split
    · rfl
    · rename_i heq
      rw [hrec] at heq
      simp at heq
  | case2 seed size hs hsz ts tsz snd hrec hnone =>
    obtain ⟨v, hv⟩ := htot hs hsz
    rw [hv] at hnone
    exact absurd hnone (by simp)
  | case3 seed size hs hsz ts tsz snd hrec w hw ih =>
    obtain ⟨l, hl⟩ := ih
    refine ⟨w :: l, ?_⟩
    rw [vecConjureGo]
    split
    · rename_i heq
      rw [hrec] at heq
      simp at heq
    · rename_i heq
      rw [hrec] at heq
      simp only [Prod.mk.injEq, Option.some.injEq] at heq
      obtain ⟨⟨⟨h1, h2⟩, h3, h4⟩, h5⟩ := heq
      subst h1 h2 h3 h4
      rw [hw, hl]
      rfl

/-- C1: for the protocol impls in the sources, `conjure`/`leaf` return
`Uninstantiable` for every seed iff the transitively computed `Cardinality`
is `Empty`.  Concretely: assuming the components satisfy the documented
invariant, `Result<T, E>`'s `conjure` and `leaf` satisfy it at the summed
cardinality and fail everywhere exactly when both `T` and `E` are `Empty`;
`Vec<T>`'s `conjure` and `leaf` never fail — even for an `Empty` element
type, where the vector cardinality is `Finite` and the only generated value
is the empty vector. -/
theorem conjure_uninstantiable_iff_empty {α ε : Type}
    (cT cE : Cardinality) (conjT leafT : SeedP → Option α)
    (conjE leafE : SeedP → Option ε) (cV : Cardinality)
    (conjV : SeedS → Nat → Option α)
    (hT : StrongInv cT conjT) (hE : StrongInv cE conjE)
    (hTl : StrongInv cT leafT) (hEl : StrongInv cE leafE)
    (hV : StrongInvS cV conjV) :
    StrongInv (cT.sum cE) (resultConjure cT cE conjT conjE)
    ∧ StrongInv (cT.sum cE) (resultLeaf cT cE leafT leafE)
    ∧ ((∀ s, resultConjure cT cE conjT conjE s = none)
        ↔ (cT = .Empty ∧ cE = .Empty))
    ∧ ((∀ s, resultLeaf cT cE leafT leafE s = none)
        ↔ (cT = .Empty ∧ cE = .Empty))
    ∧ (cT.sum cE = .Empty ↔ (cT = .Empty ∧ cE = .Empty))
    ∧ (∀ sd sz, ∃ l, vecConjure cV conjV sd sz = some l)
    ∧ (∀ sd : SeedS, vecLeaf (α := α) sd = some [])
    ∧ vecCard cV ≠ .Empty
    ∧ (cV = .Empty → ∀ sd sz, vecConjure cV conjV sd sz = some []) := by
  refine ⟨resultConjure_inv cT cE conjT conjE hT hE, ?_, ?_, ?_, ?_, ?_,
    fun _ => rfl, ?_, ?_⟩
  · rw [resultLeaf_eq_resultConjure]
    exact resultConjure_inv cT cE leafT leafE hTl hEl
  · exact resultConjure_none_iff cT cE conjT conjE hT hE
  · rw [resultLeaf_eq_resultConjure]
    exact resultConjure_none_iff cT cE leafT leafE hTl hEl
  · cases cT <;> cases cE <;> simp [Cardinality.sum]
  · intro sd sz
    cases hcv : cV with
    | Empty => exact ⟨[], rfl⟩
    | Finite =>
      rw [hcv] at hV
      exact vecConjureGo_some conjV hV sd sz
    | Infinite =>
      rw [hcv] at hV
      exact vecConjureGo_some conjV hV sd sz
  · cases cV <;> simp [vecCard]
  · rintro rfl sd sz
    rfl

/-- Closed instance of `conjure_uninstantiable_iff_empty` with both
`Result` components (and the `Vec` element type) uninstantiable. -/
theorem conjure_uninstantiable_iff_empty_witness :
    StrongInv (Cardinality.Empty.sum .Empty)
      (resultConjure (α := Nat) (ε := Nat) .Empty .Empty
        (fun _ => none) (fun _ => none))
    ∧ StrongInv (Cardinality.Empty.sum .Empty)
      (resultLeaf (α := Nat) (ε := Nat) .Empty .Empty
        (fun _ => none) (fun _ => none))
    ∧ ((∀ s, resultConjure (α := Nat) (ε := Nat) .Empty .Empty
        (fun _ => none) (fun _ => none) s = none)
        ↔ (Cardinality.Empty = .Empty ∧ Cardinality.Empty = .Empty))
    ∧ ((∀ s, resultLeaf (α := Nat) (ε := Nat) .Empty .Empty
        (fun _ => none) (fun _ => none) s = none)
        ↔ (Cardinality.Empty = .Empty ∧ Cardinality.Empty = .Empty))
    ∧ (Cardinality.Empty.sum .Empty = .Empty
        ↔ (Cardinality.Empty = .Empty ∧ Cardinality.Empty = .Empty))
    ∧ (∀ sd sz, ∃ l, vecConjure (α := Nat) .Empty
        (fun _ _ => none) sd sz = some l)
    ∧ (∀ sd : SeedS, vecLeaf (α := Nat) sd = some [])
    ∧ vecCard .Empty ≠ .Empty
    ∧ (Cardinality.Empty = .Empty → ∀ sd sz,
        vecConjure (α := Nat) .Empty (fun _ _ => none) sd sz = some []) :=
  conjure_uninstantiable_iff_empty .Empty .Empty
    (fun _ => none) (fun _ => none) (fun _ => none) (fun _ => none)
    .Empty (fun _ _ => none)
    (fun _ => rfl) (fun _ => rfl) (fun _ => rfl) (fun _ => rfl)
    (fun _ _ => rfl)

/-- A successful memoized ladder step returns a fresh, strictly smaller
value satisfying the property, and the memo set stays sound below it:
everything recorded below the new accumulator fails the property. -/
lemma stepGo_memo_some {p : Nat → Bool} {acc d : Nat} {seen' : List Nat} :
    ∀ {shift : Nat} {seen : List Nat},
      (∀ c ∈ seen, c < acc → p c = false) →
      stepGo 8 acc (memoQuery p) shift seen = (some d, seen') →
      p d = true ∧ d < acc ∧ (∀ c ∈ seen', c < d → p c = false) := by
  intro shift seen hinv h
  induction' hk : 8 - shift with k ih generalizing shift seen
  · rw [stepGo, dif_pos (Nat.le_of_sub_eq_zero hk)] at h
    exact absurd (congrArg (fun z => z.1) h) (by simp)
  · have hw : ¬ 8 ≤ shift := by omega
    rw [stepGo, dif_neg hw] at h
    by_cases hz : acc >>> shift = 0
    · rw [if_pos hz] at h
      exact absurd (congrArg (fun z => z.1) h) (by simp)
    · rw [if_neg hz] at h
      have hsub_pos : 0 < acc >>> shift := Nat.pos_of_ne_zero hz
      have hsub_le : acc >>> shift ≤ acc := by
        rw [Nat.shiftRight_eq_div_pow]
        exact Nat.div_le_self acc (2 ^ shift)
      set c := acc - acc >>> shift with hc
      have hclt : c < acc := by omega
      rcases hq : memoQuery p c seen with ⟨b, seen₁⟩
      simp only [hq] at h
      rw [memoQuery] at hq
      by_cases hmem : c ∈ seen
      · rw [if_pos hmem] at hq
        obtain ⟨rfl, rfl⟩ : b = false ∧ seen₁ = seen := by
          constructor
          · exact (congrArg (fun z => z.1) hq).symm
          · exact (congrArg (fun z => z.2) hq).symm
        simp only [Bool.false_eq_true, if_false] at h
        exact ih hinv h (by omega)
      · rw [if_neg hmem] at hq
        obtain ⟨hb, rfl⟩ : b = p c ∧ seen₁ = c :: seen := by
          constructor
          · exact (congrArg (fun z => z.1) hq).symm
          · exact (congrArg (fun z => z.2) hq).symm
        by_cases hpc : p c = true
        · rw [hpc] at hb
          subst hb
          simp only [if_true] at h
          have hd : d = c := by
            have h1 := congrArg (fun z => z.1) h
            simpa using h1.symm
          have hseen : seen' = c :: seen := by
            have h1 := congrArg (fun z => z.2) h
            simpa using h1.symm
          subst hd
          refine ⟨hpc, hclt, ?_⟩
          intro e he helt
          rw [hseen] at he
          rcases List.mem_cons.mp he with rfl | he'
          · omega
          · exact hinv e he' (by omega)
        · simp only [Bool.not_eq_true] at hpc
          rw [hpc] at hb
          subst hb
          simp only [Bool.false_eq_true, if_false] at h
          refine ih ?_ h (by omega)
          intro e he _
          rcases List.mem_cons.mp he with rfl | he'
          · exact hpc
          · exact hinv e he' (by omega)

/-- When the memoized ladder finds nothing, neither does the plain one:
every memo hit below the accumulator was a genuine failure. -/
lemma stepGo_memo_none {p : Nat → Bool} {acc : Nat} {seenF : List Nat} :
    ∀ {shift : Nat} {seen : List Nat},
      (∀ c ∈ seen, c < acc → p c = false) →
      stepGo 8 acc (memoQuery p) shift seen = (none, seenF) →
      stepGo 8 acc (fun n _ => (p n, ())) shift () = (none, ()) := by
  intro shift seen hinv h
  induction' hk : 8 - shift with k ih generalizing shift seen
  · rw [stepGo, dif_pos (Nat.le_of_sub_eq_zero hk)] at h ⊢
  · have hw : ¬ 8 ≤ shift := by omega
    rw [stepGo, dif_neg hw] at h ⊢
    by_cases hz : acc >>> shift = 0
    · rw [if_pos hz] at h ⊢
    · rw [if_neg hz] at h ⊢
      have hsub_pos : 0 < acc >>> shift := Nat.pos_of_ne_zero hz
      have hsub_le : acc >>> shift ≤ acc := by
        rw [Nat.shiftRight_eq_div_pow]
        exact Nat.div_le_self acc (2 ^ shift)
      set c := acc - acc >>> shift with hc
      have hclt : c < acc := by omega
      rcases hq : memoQuery p c seen with ⟨b, seen₁⟩
      simp only [hq] at h
      rw [memoQuery] at hq
      by_cases hmem : c ∈ seen
      · rw [if_pos hmem] at hq
        obtain ⟨rfl, rfl⟩ : b = false ∧ seen₁ = seen := by
          constructor
          · exact (congrArg (fun z => z.1) hq).symm
          · exact (congrArg (fun z => z.2) hq).symm
        simp only [Bool.false_eq_true, if_false] at h
        have hpc : p c = false := hinv c hmem hclt
        simp only [hpc, Bool.false_eq_true, if_false]
        exact ih hinv h (by omega)
      · rw [if_neg hmem] at hq
        obtain ⟨hb, rfl⟩ : b = p c ∧ seen₁ = c :: seen := by
          constructor
          · exact (congrArg (fun z => z.1) hq).symm
          · exact (congrArg (fun z => z.2) hq).symm
        by_cases hpc : p c = true
        · rw [hpc] at hb
          subst hb
          simp only [if_true] at h
          exact absurd (congrArg (fun z => z.1) h) (by simp)
        · simp only [Bool.not_eq_true] at hpc
          rw [hpc] at hb
          subst hb
          simp only [Bool.false_eq_true, if_false] at h
          simp only [hpc, Bool.false_eq_true, if_false]
          refine ih ?_ h (by omega)
          intro e he _
          rcases List.mem_cons.mp he with rfl | he'
          · exact hpc
          · exact hinv e he' (by omega)

/-- The driver's invariant: starting from any sound memo state, the final
accumulator still satisfies the property (if the start did) and is a local
fixpoint of the plain, un-memoized single-step shrinker. -/
lemma minimalGo_spec (p : Nat → Bool) :
    ∀ (acc : Nat) (seen : List Nat),
      (∀ c ∈ seen, c < acc → p c = false) →
      (p acc = true → p (minimalGo p acc seen) = true)
      ∧ stepU 8 (minimalGo p acc seen) (fun n _ => (p n, ())) ()
          = (none, ()) := by
  intro acc
  induction acc using Nat.strong_induction_on with
  | _ acc ih =>
    intro seen hinv
    rw [minimalGo]
    split
    · rename_i seenF heq
      exact ⟨fun hp => hp, stepGo_memo_none hinv heq⟩
    · rename_i r seen' heq
      obtain ⟨hpr, hrlt, hinv'⟩ := stepGo_memo_some hinv heq
      have hrec := ih r hrlt seen' hinv'
      exact ⟨fun _ => hrec.1 hpr, hrec.2⟩

/-- C2 (amended): provided the starting value satisfies the property — as
is always the case when `minimal` is invoked from `witness` — the result
`m = minimal(v, property)` satisfies the property, and a further `step`
with the plain (un-memoized) property returns `None`: `m` is a local
fixpoint of the single-step shrinker.  (Formalized at the `u8` instance.) -/
theorem minimal_satisfies_and_fixpoint (v : Nat) (p : Nat → Bool)
    (hv : p v = true) :
    p (minimalU8 v p) = true
    ∧ stepU 8 (minimalU8 v p) (fun n _ => (p n, ())) () = (none, ()) := by
  have h := minimalGo_spec p v [] (by intro c hc; simp at hc)
  exact ⟨h.1 hv, h.2⟩

/-- Closed instance of `minimal_satisfies_and_fixpoint` at `v = 100`,
`p = (42 ≤ ·)`. -/
theorem minimal_satisfies_and_fixpoint_witness :
    (fun u => decide (42 ≤ u)) 100 = true
    ∧ ((fun u => decide (42 ≤ u)) (minimalU8 100 (fun u => decide (42 ≤ u)))
          = true
      ∧ stepU 8 (minimalU8 100 (fun u => decide (42 ≤ u)))
          (fun n _ => (decide (42 ≤ n), ())) () = (none, ())) :=
  ⟨by decide,
    minimal_satisfies_and_fixpoint 100 (fun u => decide (42 ≤ u)) (by decide)⟩

unseal stepGo minimalGo in
/-- C2 counterexample: the claim as stated quantifies over every value and
predicate, but when the starting value itself fails the predicate and no
candidate passes, `minimal` returns it unchanged: at `v = 0` with the
always-false property, `minimal(v, property) = 0` and `property(0)` is
`false`, not `true`. -/
theorem minimal_property_counterexample :
    minimalU8 0 (fun _ => false) = 0
    ∧ (fun _ : Nat => false) (minimalU8 0 (fun _ => false)) = false :=
  ⟨rfl, rfl⟩

/-- The exhausted state (nothing cached, no heads left, tail inactive) is a
fixpoint: `next` returns `None` and leaves the state unchanged, so every
subsequent call also returns `None`. -/
lemma cpNext_dead {α β : Type} (tl : List β) :
    cpNext (⟨none, [], none, tl⟩ : CPState α β)
      = (none, ⟨none, [], none, tl⟩) := by
  rw [cpNext]

/-- With an empty tail factory, one `next` call walks through all remaining
heads and ends exhausted. -/
lemma cpNext_empty_reload {α β : Type} :
    ∀ hd : List α,
      cpNext (⟨none, hd, none, ([] : List β)⟩ : CPState α β)
        = (none, ⟨none, [], none, []⟩) := by
  intro hd
  induction hd with
  | nil => rw [cpNext]
  | cons h hr ih => rw [cpNext, ih]

/-- Runs only depend on the state through `next`. -/
lemma cpRun_congr_next {α β : Type} {s s' : CPState α β}
    (h : cpNext s = cpNext s') (k : Nat) :
    cpRun s (k + 1) = cpRun s' (k + 1) := by
  rw [cpRun, cpRun, h]

/-- Driving an active tail pass: the remaining tail items all pair with the
cached head, after which the run continues from the cleared, inactive
state. -/
lemma cpRun_active {α β : Type} (h : α) (hr : List α) (tl : List β) :
    ∀ (rem : List β) (k : Nat),
      cpRun (⟨some h, hr, some rem, tl⟩ : CPState α β) (rem.length + k + 1)
        = ((rem.map (fun t => (h, t)))
            ++ (cpRun (⟨none, hr, none, tl⟩ : CPState α β) (k + 1)).1,
          (cpRun (⟨none, hr, none, tl⟩ : CPState α β) (k + 1)).2) := by
  intro rem
  induction rem with
  | nil =>
    intro k
    have hnext : cpNext (⟨some h, hr, some [], tl⟩ : CPState α β)
        = cpNext (⟨none, hr, none, tl⟩ : CPState α β) := by
      rw [cpNext]
    simp only [List.length_nil, List.map_nil, List.nil_append, Nat.zero_add]
    rw [cpRun_congr_next hnext k]
  | cons t rem' ih =>
    intro k
    have hstep : cpNext (⟨some h, hr, some (t :: rem'), tl⟩ : CPState α β)
        = (some (h, t), ⟨some h, hr, some rem', tl⟩) := by
      rw [cpNext]
    have hfuel : (t :: rem').length + k + 1 = (rem'.length + k + 1) + 1 := by
      simp
      omega
    rw [hfuel, cpRun, hstep]
    dsimp only
    rw [ih k]
    simp

/-- Starting idle on a head list, enough fuel drives the product to
completion, ending exhausted. -/
lemma cpRun_from_idle {α β : Type} :
    ∀ (hd : List α) (tl : List β),
      cpRun (⟨none, hd, none, tl⟩ : CPState α β) (hd.length * tl.length + 1)
        = (hd.bind (fun hh => tl.map (fun t => (hh, t))),
          ⟨none, [], none, tl⟩) := by
  intro hd
  induction hd with
  | nil =>
    intro tl
    simp only [List.length_nil, Nat.zero_mul, Nat.zero_add, List.nil_bind]
    rw [cpRun, cpNext_dead]
  | cons h hr ih =>
    intro tl
    match tl with
    | [] =>
      rw [cpRun, cpNext_empty_reload]
      simp
    | t :: tl' =>
      have hstep : cpNext (⟨none, h :: hr, none, t :: tl'⟩ : CPState α β)
          = (some (h, t), ⟨some h, hr, some tl', t :: tl'⟩) := by
        rw [cpNext]
      have hfuel : (h :: hr).length * (t :: tl').length + 1
          = ((tl'.length + (hr.length * (t :: tl').length + 1)) + 1) := by
        simp
        ring
      rw [hfuel, cpRun, hstep]
      dsimp only
      have hact := cpRun_active h hr (t :: tl') tl'
        (hr.length * (t :: tl').length)
      rw [show tl'.length + (hr.length * (t :: tl').length + 1)
          = tl'.length + hr.length * (t :: tl').length + 1 from rfl]
      rw [hact, ih (t :: tl')]
      simp

/-- C7: for a finite head iterator and a tail factory producing the same
finite sequence on every call, `CartesianProduct::new(head, factory)` emits
every pair `(h, t)` exactly once with the head varying slowest (the run's
output is exactly `head.bind (fun h => tail.map (h, ·))`), ends in the
exhausted state, and that state is a `next` fixpoint returning `None` — so
every subsequent call also yields `None`. -/
theorem cartesianProduct_spec {α β : Type} (hd : List α) (tl : List β) :
    (cpRun (CPState.new hd tl) (hd.length * tl.length + 1)).1
      = hd.bind (fun h => tl.map (fun t => (h, t)))
    ∧ (cpRun (CPState.new hd tl) (hd.length * tl.length + 1)).2
      = ⟨none, [], none, tl⟩
    ∧ cpNext (⟨none, [], none, tl⟩ : CPState α β)
      = (none, ⟨none, [], none, tl⟩) := by
  have hmain := cpRun_from_idle hd tl
  refine ⟨?_, ?_, cpNext_dead tl⟩
  · rw [CPState.new, hmain]
  · rw [CPState.new, hmain]

unseal stepGo minimalGo in
/-- C8: `witness::<u8>` with the predicate `|&u| u >= 42` returns `Ok(42)`:
over the 1000 deterministically drawn trial seeds, a trial conjures a byte
of at least `42` (the very first trial yields `111`), and the shrink driver
reduces that first success to exactly `42`.  The PRNG is the spec-modelled
wyrand generator. -/
theorem witness_u8_ge42 :
    witnessU8ge42 = .ok 42
    ∧ conjU8 (SeedP.mk 4727438489478079325 0) = some 111
    ∧ minimalU8 111 (fun u => decide (42 ≤ u)) = 42 :=
  ⟨rfl, rfl, rfl⟩

end Pbt
